import Mathlib

/-!
Verification of the PrivX provider for external-secrets
(`src/providers/v1/privx` and the newer client/provider sources).

The development shallowly embeds the newer PrivX `SecretsClient`
(`GetSecret`, `GetSecretMap`, `GetAllSecrets`, `PushSecret`,
`DeleteSecret`, `Validate`) together with its helper functions
(`decode`, `anyToBytes`, `isNotFound`, `packRoles`).  Go byte slices are
modelled as `List Nat` (each element `< 256`), Go strings as Lean
`String`s (converted to UTF-8 bytes where the code does), Go maps as
association lists in traversal order (first binding wins on lookup,
assignment replaces in place), and the PrivX vault SDK — which is an
external collaborator of the repository — as a record of abstract
transport functions following the spec's §6 interface description.
-/

/-! ## Byte and string helpers -/

/-- UTF-8 encoding of one character, as byte values (Go `[]byte(string)`). -/
def charUtf8 (c : Char) : List Nat :=
  let n := c.toNat
  if n < 128 then [n]
  else if n < 2048 then [192 + n / 64, 128 + n % 64]
  else if n < 65536 then [224 + n / 4096, 128 + n / 64 % 64, 128 + n % 64]
  else [240 + n / 262144, 128 + n / 4096 % 64, 128 + n / 64 % 64, 128 + n % 64]

/-- UTF-8 bytes of a string (Go's `[]byte(s)` conversion). -/
def strBytes (s : String) : List Nat :=
  (s.data.map charUtf8).flatten

/-- Whether `pat` is an initial run of `s` (character lists). -/
def charsBegin : List Char → List Char → Bool
  | [], _ => true
  | _ :: _, [] => false
  | p :: ps, c :: cs => p == c && charsBegin ps cs

/-- Whether `pat` occurs contiguously somewhere in `s` (character lists).
Mirrors Go `strings.Contains`; the empty pattern occurs everywhere. -/
def charsFind (pat : List Char) : List Char → Bool
  | [] => pat.isEmpty
  | c :: cs => charsBegin pat (c :: cs) || charsFind pat cs

/-- Go `strings.Contains s pat`. -/
def strContainsSub (s pat : String) : Bool :=
  charsFind pat.data s.data

/-- ASCII lowering of one character.  The client's error messages are
ASCII, so this is Go's `strings.ToLower` restricted to the ASCII range. -/
def asciiLowerChar (c : Char) : Char :=
  if 65 ≤ c.toNat ∧ c.toNat ≤ 90 then Char.ofNat (c.toNat + 32) else c

/-- ASCII `strings.ToLower`. -/
def asciiLower (s : String) : String :=
  String.mk (s.data.map asciiLowerChar)

/-! ## Error model

The client works with Go `error` values whose only structure the code
ever inspects is the message text (`isNotFound` does a substring test).
We model the errors that the embedded code can produce as an inductive
type together with the message each one formats with `fmt.Errorf`. -/

/-- The Go errors produced or propagated by the PrivX client. -/
inductive GoErr where
  /-- An opaque error from the vault transport, carrying its message. -/
  | vaultMsg (msg : String)
  /-- `ErrSecretDataMissing`, optionally wrapped with `": <key>"`. -/
  | secretDataMissing (detail : String)
  /-- `ErrPropertyNotFound`, optionally wrapped with `": <key>/<prop>"`. -/
  | propertyNotFound (detail : String)
  /-- `ErrNotImplemented` wrapped with the offending parameter name. -/
  | notImplemented (param : String)
  /-- `base64.CorruptInputError` (the byte position is not modelled). -/
  | decodeCorrupt
  /-- `ErrUnsupportedDecodingStrategy` wrapped with the strategy tag. -/
  | unsupportedStrategy (s : String)
  /-- `ErrNoName`. -/
  | noName
  deriving DecidableEq, Repr

/-- The message text of an error (what Go's `err.Error()` returns). -/
def GoErr.msg : GoErr → String
  | .vaultMsg m => m
  | .secretDataMissing d => "secret data missing" ++ d
  | .propertyNotFound d => "property not found in secret" ++ d
  | .notImplemented p => "parameter \"" ++ p ++ "\": not implemented"
  | .decodeCorrupt => "illegal base64 data at input byte"
  | .unsupportedStrategy s => "unsupported decoding strategy: " ++ s
  | .noName => "No name provided for secret"

/-- The client's `isNotFound`: PrivX loses the HTTP status code, so
classification tests whether the lowercased message contains the
substring `"secret not found"`. -/
def isNotFound (e : GoErr) : Bool :=
  strContainsSub (asciiLower e.msg) "secret not found"

/-! ## Base64 (`encoding/base64`)

The Go standard library is external to the repository; these functions
model `StdEncoding`/`URLEncoding` `DecodeString` and `EncodeToString` as
the spec describes them (§4.2: standard or URL-safe alphabet **with
padding**, failing on invalid input).  Newline skipping and the byte
position inside `CorruptInputError` are not modelled; like Go's default
(non-`Strict`) decoders, nonzero trailing padding bits are accepted. -/

/-- The base64 alphabet, as byte values.  `url` selects the URL-safe
alphabet (`-`/`_` instead of `+`/`/`). -/
def b64Char (url : Bool) (n : Nat) : Nat :=
  if n < 26 then 65 + n
  else if n < 52 then 97 + (n - 26)
  else if n < 62 then 48 + (n - 52)
  else if n = 62 then (if url then 45 else 43)
  else (if url then 95 else 47)

/-- Reverse alphabet lookup: the 6-bit value of one base64 symbol. -/
def b64DecChar (url : Bool) (c : Nat) : Option Nat :=
  if 65 ≤ c ∧ c ≤ 90 then some (c - 65)
  else if 97 ≤ c ∧ c ≤ 122 then some (c - 97 + 26)
  else if 48 ≤ c ∧ c ≤ 57 then some (c - 48 + 52)
  else if c = (if url then 45 else 43) then some 62
  else if c = (if url then 95 else 47) then some 63
  else none

/-- Modelled from the spec: Go `base64.StdEncoding.EncodeToString` /
`URLEncoding.EncodeToString` (the encoder itself is stdlib code absent
from the repository; §8 refers to it as `encodeBase64`).  Input bytes
are packed three at a time into four symbols, the final group padded
with `=` (byte 61). -/
def b64encode (url : Bool) : List Nat → List Nat
  | [] => []
  | [b0] => [b64Char url (b0 / 4), b64Char url (b0 % 4 * 16), 61, 61]
  | [b0, b1] =>
    [b64Char url (b0 / 4), b64Char url (b0 % 4 * 16 + b1 / 16),
     b64Char url (b1 % 16 * 4), 61]
  | b0 :: b1 :: b2 :: rest =>
    b64Char url (b0 / 4) :: b64Char url (b0 % 4 * 16 + b1 / 16) ::
    b64Char url (b1 % 16 * 4 + b2 / 64) :: b64Char url (b2 % 64) ::
    b64encode url rest

/-- Go `base64.(Std|URL)Encoding.DecodeString`: the input must split
into four-symbol quanta; `=` padding may close the final quantum only.
`none` models the `CorruptInputError` failure. -/
def b64dec (url : Bool) : List Nat → Option (List Nat)
  | [] => some []
  | c0 :: c1 :: c2 :: c3 :: rest =>
    match b64DecChar url c0, b64DecChar url c1 with
    | some d0, some d1 =>
      if c2 = 61 then
        if c3 = 61 ∧ rest = [] then some [d0 * 4 + d1 / 16] else none
      else
        match b64DecChar url c2 with
        | some d2 =>
          if c3 = 61 then
            if rest = [] then some [d0 * 4 + d1 / 16, d1 % 16 * 16 + d2 / 4]
            else none
          else
            match b64DecChar url c3 with
            | some d3 =>
              match b64dec url rest with
              | some tail =>
                some ((d0 * 4 + d1 / 16) :: (d1 % 16 * 16 + d2 / 4) ::
                      (d2 % 4 * 64 + d3) :: tail)
              | none => none
            | none => none
        | none => none
    | _, _ => none
  | _ => none

/-! ## `decode` (the client's decoding-strategy dispatcher)

The ESO strategy tags are strings (`"Base64"`, `"Base64URL"`, `"None"`,
`""`, `"Auto"`); the Go `switch` becomes an `if` chain in the same
order.  The `Auto` case in Go recursively calls `decode` with `Base64`
and then `Base64URL`; those two calls are unfolded here. -/

/-- The client's `decode`: applies a decoding strategy to a
byte value. -/
def decode (value : List Nat) (strategy : String) : Except GoErr (List Nat) :=
  if strategy = "Base64" then
    match b64dec false value with
    | some d => .ok d
    | none => .error .decodeCorrupt
  else if strategy = "Base64URL" then
    match b64dec true value with
    | some d => .ok d
    | none => .error .decodeCorrupt
  else if strategy = "None" ∨ strategy = "" then .ok value
  else if strategy = "Auto" then
    match b64dec false value with
    | some d => .ok d
    | none =>
      match b64dec true value with
      | some d => .ok d
      | none => .ok value
  else .error (.unsupportedStrategy strategy)

/-! ## JSON values

A secret's payload is `map[string]interface{}` after Go's JSON
unmarshalling: values are `nil`, `bool`, `float64`, `string`,
`[]interface{}` or `map[string]interface{}`.  Objects are association
lists in stored order.  Numbers are modelled as integers in the range
where `strconv.FormatFloat(f, 'f', -1, 64)` prints the plain decimal
digits (the claims never exercise non-integral numbers). -/

/-- A JSON value as produced by Go's `encoding/json` unmarshalling. -/
inductive Json where
  | null
  | bool (b : Bool)
  | num (n : Int)
  | str (s : String)
  | arr (xs : List Json)
  | obj (fields : List (String × Json))

/-- First-match association-list lookup (Go map read). -/
def lookupA {α : Type} : List (String × α) → String → Option α
  | [], _ => none
  | (k, v) :: rest, key => if k = key then some v else lookupA rest key

/-- Association-list assignment (Go map write): replaces an existing
binding in place, otherwise appends. -/
def updAssoc {α : Type} : List (String × α) → String → α → List (String × α)
  | [], k, v => [(k, v)]
  | (k', v') :: rest, k, v =>
    if k' = k then (k, v) :: rest else (k', v') :: updAssoc rest k v

/-- JSON string escaping as Go `json.Marshal` performs it (quotes,
backslash, control characters, and the HTML-escaped `<`, `>`, `&`). -/
def jsonEscapeChar (c : Char) : String :=
  if c = '"' then "\\\""
  else if c = '\\' then "\\\\"
  else if c = '\n' then "\\n"
  else if c = '\r' then "\\r"
  else if c = '\t' then "\\t"
  else if c = '<' then "\\u003c"
  else if c = '>' then "\\u003e"
  else if c = '&' then "\\u0026"
  else if c.toNat < 32 then
    "\\u00" ++ String.mk [Char.ofNat (48 + c.toNat / 16),
      Char.ofNat (if c.toNat % 16 < 10 then 48 + c.toNat % 16
        else 87 + c.toNat % 16)]
  else String.mk [c]

/-- A JSON-quoted string literal. -/
def jsonQuote (s : String) : String :=
  "\"" ++ String.join (s.data.map jsonEscapeChar) ++ "\""

/-- Insert a rendered field into a key-sorted list (Go `json.Marshal`
emits object keys in ascending byte order). -/
def insertSorted (p : String × String) :
    List (String × String) → List (String × String)
  | [] => [p]
  | q :: rest => if p.1 ≤ q.1 then p :: q :: rest else q :: insertSorted p rest

/-- Key-sort rendered fields (insertion sort, ascending). -/
def sortFields : List (String × String) → List (String × String)
  | [] => []
  | p :: rest => insertSorted p (sortFields rest)

/-- Comma-join rendered object fields as `"key":value`. -/
def joinFields : List (String × String) → String
  | [] => ""
  | [p] => jsonQuote p.1 ++ ":" ++ p.2
  | p :: q :: rest => jsonQuote p.1 ++ ":" ++ p.2 ++ "," ++ joinFields (q :: rest)

mutual

/-- Go `json.Marshal` of a JSON value, as a string.  Object keys are
sorted (Go sorts map keys); array elements keep their order. -/
def marshalJson : Json → String
  | .null => "null"
  | .bool true => "true"
  | .bool false => "false"
  | .num n => toString n
  | .str s => jsonQuote s
  | .arr xs => "[" ++ marshalArr xs ++ "]"
  | .obj fs => "\x7b" ++ joinFields (sortFields (marshalPairs fs)) ++ "\x7d"

/-- Render array elements, comma-separated. -/
def marshalArr : List Json → String
  | [] => ""
  | [x] => marshalJson x
  | x :: y :: rest => marshalJson x ++ "," ++ marshalArr (y :: rest)

/-- Render each object field's value (keys are sorted afterwards). -/
def marshalPairs : List (String × Json) → List (String × String)
  | [] => []
  | (k, v) :: rest => (k, marshalJson v) :: marshalPairs rest

end

/-- The client's `anyToBytes`: converts a JSON-unmarshalled
value to bytes.  Strings verbatim, booleans via `strconv.FormatBool`,
numbers via `strconv.FormatFloat(t, 'f', -1, 64)`, everything else
(null, arrays, objects) through `json.Marshal`.  (The `[]byte` and
`json.Number` cases of the Go `switch` cannot arise from unmarshalled
JSON and are not modelled.) -/
def anyToBytes : Json → List Nat
  | .str s => strBytes s
  | .bool b => strBytes (if b then "true" else "false")
  | .num n => strBytes (toString n)
  | v => strBytes (marshalJson v)

/-- The whole-document serialization `json.Marshal(*secret.Data)`. -/
def docBytes (data : List (String × Json)) : List Nat :=
  strBytes (marshalJson (.obj data))

/-! ## The vault transport and client state

The PrivX SDK (`vault.Vault`) is an external collaborator; the spec's
§6 fixes its interface: `getDocument(name) -> SecretDocument | error`,
`listDocuments(offset, limit) -> (items, count) | error`,
`deleteDocument(name) -> error`.  Modelled from the spec: a listing
page is its item list and its `Count` is that page's size. -/

/-- A fetched secret: the SDK's `vault.Secret`, whose `Data` field is a
nullable pointer to the unmarshalled JSON object. -/
structure VSecret where
  data : Option (List (String × Json))

/-- The abstract vault transport (one PrivX connection). -/
structure VaultT where
  /-- `vault.GetSecret(name)`. -/
  getSecret : String → Except GoErr VSecret
  /-- `vault.GetSecrets(limit, offset)`: the names on the page starting
  at `offset`, at most `limit` long.  Arguments here are `offset` then
  `limit`. -/
  getSecrets : Nat → Nat → Except GoErr (List String)
  /-- `vault.DeleteSecret(name)`: `none` is success. -/
  deleteSecret : String → Option GoErr

/-- ESO's `ExternalSecretDataRemoteRef`: lookup key, optional property
selector, decoding-strategy tag. -/
structure RemoteRef where
  key : String
  property : String
  decodingStrategy : String

/-- ESO's `ValidationResult`. -/
inductive ValidationResult where
  | ready
  | unknown
  | error
  deriving DecidableEq, Repr

/-- The SDK's `rolestore.RoleHandle`. -/
structure RoleHandle where
  id : String
  name : String
  deriving DecidableEq, Repr

/-- The client's `packRoles`: wraps role IDs as handles with
empty display names. -/
def packRoles (roleIDs : List String) : List RoleHandle :=
  roleIDs.map (fun id => ⟨id, ""⟩)

/-- The SDK's `vault.SecretRequest` as built by `PushSecret`.  The single data
field's value is a Go `[]byte` that is `nil` (`none`) when the source
secret lacks the selected key. -/
structure SecretRequest where
  name : String
  readRoles : List RoleHandle
  writeRoles : List RoleHandle
  data : List (String × Option (List Nat))

/-- The immutable client configuration (default role lists). -/
structure ClientCfg where
  defaultReadRoles : List String
  defaultWriteRoles : List String

/-! ## The client operations (`SecretsClient`) -/

/-- The client's `SecretsClient.GetSecret`: fetch the document; fail if its data
payload is missing; with an empty property return the whole document's
JSON serialization, otherwise coerce the selected field (absent or
null fields are `ErrPropertyNotFound`).  The Go code never reads
`ref.decodingStrategy`. -/
def clientGetSecret (v : VaultT) (ref : RemoteRef) : Except GoErr (List Nat) :=
  match v.getSecret ref.key with
  | .error e => .error e
  | .ok secret =>
    match secret.data with
    | none => .error (.secretDataMissing (": " ++ ref.key))
    | some data =>
      if ref.property = "" then .ok (docBytes data)
      else
        match lookupA data ref.property with
        | none => .error (.propertyNotFound (": " ++ ref.key ++ "/" ++ ref.property))
        | some .null => .error (.propertyNotFound (": " ++ ref.key ++ "/" ++ ref.property))
        | some val => .ok (anyToBytes val)

/-- The client's `SecretsClient.GetSecretMap`: with an empty property, coerce every
top-level field; with a property naming a nested object, coerce that
object's fields (one level); otherwise a single-entry map keyed by the
property.  Absent or null properties are `ErrPropertyNotFound`
(unwrapped in this operation, as in the source). -/
def clientGetSecretMap (v : VaultT) (ref : RemoteRef) :
    Except GoErr (List (String × List Nat)) :=
  match v.getSecret ref.key with
  | .error e => .error e
  | .ok secret =>
    match secret.data with
    | none => .error (.secretDataMissing "")
    | some data =>
      if ref.property = "" then
        .ok (data.map (fun kv => (kv.1, anyToBytes kv.2)))
      else
        match lookupA data ref.property with
        | none => .error (.propertyNotFound "")
        | some .null => .error (.propertyNotFound "")
        | some (.obj nested) =>
          .ok (nested.map (fun kv => (kv.1, anyToBytes kv.2)))
        | some val => .ok [(ref.property, anyToBytes val)]

/-- The client's `SecretsClient.DeleteSecret`: success when the vault delete
succeeds or fails with a not-found-classified error; any other error
propagates. -/
def clientDeleteSecret (v : VaultT) (remoteKey : String) : Option GoErr :=
  match v.deleteSecret remoteKey with
  | none => none
  | some e => if isNotFound e then none else some e

/-- The client's `SecretsClient.Validate`: probes `GetSecret` on the fixed key
`"2F0vZqCe0Z3XU5"` with no property.  When the probe returns an error,
`isNotFound` classifies it; when the probe succeeds, the Go code calls
`isNotFound(nil)`, which dereferences a nil error and panics at
runtime — modelled as `none`. -/
def clientValidate (v : VaultT) : Option (ValidationResult × Option GoErr) :=
  match clientGetSecret v ⟨"2F0vZqCe0Z3XU5", "", ""⟩ with
  | .error e =>
    if isNotFound e then some (.ready, none) else some (.error, some e)
  | .ok _ => none

/-- The name-resolution and request-building half of
`SecretsClient.PushSecret`: the remote key, else the source secret's
name (`ErrNoName` if both are empty); the request's document maps the
selected key to the source secret's value for it — Go's map read
yields a `nil` slice (`none`) when the key is absent, with no error. -/
def buildPushRequest (cfg : ClientCfg) (secretName : String)
    (secretData : List (String × List Nat)) (remoteKey secretKey : String) :
    Except GoErr SecretRequest :=
  let name := if remoteKey = "" then secretName else remoteKey
  if name = "" then .error .noName
  else
    .ok { name := name
          readRoles := packRoles cfg.defaultReadRoles
          writeRoles := packRoles cfg.defaultWriteRoles
          data := [(secretKey, lookupA secretData secretKey)] }

/-- The client's `SecretsClient.PushSecret`: build the request and send it with
`vault.CreateSecret` (abstracted as `create`); its error, if any, is
returned.  (The Go code's unconditional log write is not modelled.) -/
def clientPushSecret (create : SecretRequest → Option GoErr) (cfg : ClientCfg)
    (secretName : String) (secretData : List (String × List Nat))
    (remoteKey secretKey : String) : Option GoErr :=
  match buildPushRequest cfg secretName secretData remoteKey secretKey with
  | .error e => some e
  | .ok req => create req

/-! ## `GetAllSecrets` -/

/-- ESO's `ExternalSecretFind`.  The compiled `nameRegexp.MatchString`
is modelled from the spec as the abstract predicate carried by `name`
(`regexp` is stdlib code outside the repository; no claim concerns a
compile failure, and an absent pattern matches every name). -/
structure FindRef where
  path : Option String
  tags : Option (List (String × String))
  conversionStrategy : String
  name : Option (String → Bool)

/-- The per-page inner loop of `GetAllSecrets`: for each entry whose
name matches, fetch the document; a fetch error or a missing data
payload stops processing with that error; otherwise the full document
JSON is assigned into the results map. -/
def processItems (v : VaultT) (filt : String → Bool) :
    List String → List (String × List Nat) →
    List (String × List Nat) × Option GoErr
  | [], acc => (acc, none)
  | nm :: rest, acc =>
    if filt nm then
      match v.getSecret nm with
      | .error e => (acc, some e)
      | .ok sec =>
        match sec.data with
        | none => (acc, some (.secretDataMissing ""))
        | some d => processItems v filt rest (updAssoc acc nm (docBytes d))
    else processItems v filt rest acc

/-- The unbounded page loop of `GetAllSecrets` (`for offset := 0; ;
offset += limit` with `limit = 100`), made total with explicit fuel:
`none` models an execution that has not terminated within `fuel`
iterations.  Besides the Go function's return values (the results map
and the error), the run records the size of every successfully fetched
page, so that theorems can speak about the page fetches issued. -/
def getAllLoop (v : VaultT) (filt : String → Bool) :
    Nat → Nat → List (String × List Nat) → List Nat →
    Option (List (String × List Nat) × Option GoErr × List Nat)
  | 0, _, _, _ => none
  | fuel + 1, offset, acc, tr =>
    match v.getSecrets offset 100 with
    | .error e => some (acc, some e, tr)
    | .ok items =>
      if items.length = 0 then some (acc, none, tr ++ [0])
      else
        match processItems v filt items acc with
        | (acc', some e) => some (acc', some e, tr ++ [items.length])
        | (acc', none) =>
          if items.length < 100 then some (acc', none, tr ++ [items.length])
          else getAllLoop v filt fuel (offset + 100) acc' (tr ++ [items.length])

/-- The client's `SecretsClient.GetAllSecrets`: reject unsupported parameters
(`Path`, `Tags`, non-default `ConversionStrategy`) before any network
call, then page through the namespace. -/
def clientGetAllSecrets (v : VaultT) (ref : FindRef) (fuel : Nat) :
    Option (List (String × List Nat) × Option GoErr × List Nat) :=
  if ref.path.isSome then some ([], some (.notImplemented "ref.Path"), [])
  else if ref.tags.isSome then some ([], some (.notImplemented "ref.Tags"), [])
  else if ref.conversionStrategy ≠ "Default" then
    some ([], some (.notImplemented "ref.ConversionStrategy"), [])
  else
    let filt := match ref.name with
      | none => fun _ => true
      | some f => f
    getAllLoop v filt fuel 0 [] []

/-! ## List-backed vault instances

Concrete transports used to settle the claims: a vault whose namespace
is a fixed list of named documents, listed in order, where a document's
payload may be present or missing (`none` models a secret whose `Data`
pointer is nil). -/

/-- A vault backed by a list of (name, optional payload) entries.
`getSecret` resolves by first-match lookup; `getSecrets` pages through
the names in listing order; deletes always succeed. -/
def vaultOfDocs (entries : List (String × Option (List (String × Json)))) : VaultT where
  getSecret := fun n =>
    match lookupA entries n with
    | some odata => .ok ⟨odata⟩
    | none => .error (.vaultMsg ("PrivX API error: Secret not found: " ++ n))
  getSecrets := fun offset limit =>
    .ok (((entries.map Prod.fst).drop offset).take limit)
  deleteSecret := fun _ => none

/-! ## Result classification helpers -/

/-- Whether a client result failed with `ErrPropertyNotFound`
(possibly wrapped). -/
def isPropNotFoundE {α : Type} : Except GoErr α → Bool
  | .error (.propertyNotFound _) => true
  | _ => false

/-! ## C1: `GetSecret` and the decoding strategy -/

/-- C1: The claim says `GetSecret` resolves the value per the Document
Navigator rules and then applies the selected decoding strategy to the
scalar result.  The code resolves correctly but never applies the
strategy: with the document `{"a": "aGk="}` and strategy `Base64`, the
returned bytes are the raw text `"aGk="`, although `decode` (dead code
in this client) would map them to `"hi"`. -/
theorem getSecret_ignores_decoding_strategy :
    clientGetSecret (vaultOfDocs [("s", some [("a", .str "aGk=")])])
        ⟨"s", "a", "Base64"⟩ = .ok (strBytes "aGk=") ∧
    decode (strBytes "aGk=") "Base64" = .ok (strBytes "hi") ∧
    strBytes "aGk=" ≠ strBytes "hi" :=
  ⟨rfl, rfl, by decide⟩

/-! ## C2: `Validate` on a successful probe -/

/-- C2: The claim says `Validate` returns a validation failure when the
probe `GetSecret` against the fixed key `"2F0vZqCe0Z3XU5"` succeeds.
In the code the success path reaches `isNotFound(nil)`, which
dereferences a nil error and panics (modelled as `none`): on a vault
that does contain the probe key, `Validate` crashes instead of
returning. -/
theorem validate_panics_on_probe_success :
    clientGetSecret (vaultOfDocs [("2F0vZqCe0Z3XU5", some [("a", .str "x")])])
        ⟨"2F0vZqCe0Z3XU5", "", ""⟩ = .ok (docBytes [("a", .str "x")]) ∧
    clientValidate (vaultOfDocs [("2F0vZqCe0Z3XU5", some [("a", .str "x")])]) = none :=
  ⟨rfl, rfl⟩

/-! ## C4: `Auto` decoding is total -/

/-- C4: `decode(x, Auto)` never returns an error: it first attempts
standard-alphabet base64, on failure URL-safe base64, and if both fail
it returns the input unchanged — the standard alphabet is tried first,
so its successful result wins. -/
theorem decode_auto_never_fails (x : List Nat) :
    (∃ y, decode x "Auto" = .ok y) ∧
    (∀ y, b64dec false x = some y → decode x "Auto" = .ok y) ∧
    (b64dec false x = none → ∀ y, b64dec true x = some y →
      decode x "Auto" = .ok y) ∧
    (b64dec false x = none → b64dec true x = none →
      decode x "Auto" = .ok x) := by
  unfold decode
  rw [if_neg (by decide), if_neg (by decide), if_neg (by decide),
      if_pos rfl]
  cases hs : b64dec false x with
  | some y => exact ⟨⟨y, rfl⟩, fun z hz => by simp_all, fun h => by simp_all,
      fun h => by simp_all⟩
  | none =>
    cases hu : b64dec true x with
    | some y => exact ⟨⟨y, rfl⟩, fun z hz => by simp_all,
        fun _ z hz => by simp_all, fun _ h => by simp_all⟩
    | none => exact ⟨⟨x, rfl⟩, fun z hz => by simp_all,
        fun _ z hz => by simp_all, fun _ _ => rfl⟩

/-- C4 witness: `"hi!"` is valid base64 in neither alphabet, so `Auto`
returns it unchanged. -/
theorem decode_auto_never_fails_witness :
    decode (strBytes "hi!") "Auto" = .ok (strBytes "hi!") :=
  (decode_auto_never_fails (strBytes "hi!")).2.2.2 (by decide) (by decide)

/-! ## C7: property-not-found classification -/

/-- C7: given a fetched document with a data payload and a non-empty
selector, `GetSecret` and `GetSecretMap` fail with
`ErrPropertyNotFound` exactly when the selector names a field that is
absent from the document or whose value is JSON null. -/
theorem property_not_found_iff (v : VaultT) (key prop strat : String)
    (data : List (String × Json))
    (hprop : prop ≠ "")
    (hdoc : v.getSecret key = .ok ⟨some data⟩) :
    (isPropNotFoundE (clientGetSecret v ⟨key, prop, strat⟩) = true ↔
      lookupA data prop = none ∨ lookupA data prop = some .null) ∧
    (isPropNotFoundE (clientGetSecretMap v ⟨key, prop, strat⟩) = true ↔
      lookupA data prop = none ∨ lookupA data prop = some .null) := by
  unfold clientGetSecret clientGetSecretMap
  rw [hdoc]
  simp only [if_neg hprop]
  cases hl : lookupA data prop with
  | none => simp [isPropNotFoundE]
  | some val => cases val <;> simp [isPropNotFoundE]

/-- C7 witness: over the document `{"a": 1, "n": null}` the selector
`"z"` (absent) and the selector `"n"` (null) both fail with
`ErrPropertyNotFound`, while `"a"` does not. -/
theorem property_not_found_iff_witness :
    isPropNotFoundE (clientGetSecret
      (vaultOfDocs [("k", some [("a", .num 1), ("n", .null)])])
      ⟨"k", "z", ""⟩) = true ∧
    isPropNotFoundE (clientGetSecretMap
      (vaultOfDocs [("k", some [("a", .num 1), ("n", .null)])])
      ⟨"k", "n", ""⟩) = true ∧
    isPropNotFoundE (clientGetSecret
      (vaultOfDocs [("k", some [("a", .num 1), ("n", .null)])])
      ⟨"k", "a", ""⟩) = false :=
  ⟨(property_not_found_iff _ "k" "z" "" [("a", .num 1), ("n", .null)]
      (by decide) rfl).1.mpr (Or.inl rfl),
   (property_not_found_iff _ "k" "n" "" [("a", .num 1), ("n", .null)]
      (by decide) rfl).2.mpr (Or.inr rfl),
   rfl⟩

/-! ## C6: `GetSecretMap` with a property selector -/

/-- C6 counterexample: the claim quantifies over every selector
*present* in the document and says a non-object field yields a
single-entry map; but a field that is present with value JSON null is
rejected with `ErrPropertyNotFound` instead. -/
theorem getSecretMap_null_property_counterexample :
    lookupA [("a", Json.null)] "a" = some Json.null ∧
    clientGetSecretMap (vaultOfDocs [("k", some [("a", Json.null)])])
      ⟨"k", "a", ""⟩ = .error (.propertyNotFound "") :=
  ⟨rfl, rfl⟩

/-- C6 (amended: the selected field must also be non-null): for a
document field selected by a non-empty property, an object value yields
the mapping of that object's own fields through `anyToBytes` (one level
of flattening; nested composites are serialized by `anyToBytes` as
JSON), and a non-object value yields the single-entry map keyed by the
selector. -/
theorem getSecretMap_property_resolution (v : VaultT) (key prop strat : String)
    (data : List (String × Json)) (val : Json)
    (hprop : prop ≠ "") (hdoc : v.getSecret key = .ok ⟨some data⟩)
    (hval : lookupA data prop = some val) (hnn : val ≠ .null) :
    (∀ fields, val = .obj fields →
      clientGetSecretMap v ⟨key, prop, strat⟩ =
        .ok (fields.map (fun kv => (kv.1, anyToBytes kv.2)))) ∧
    ((∀ fields, val ≠ .obj fields) →
      clientGetSecretMap v ⟨key, prop, strat⟩ = .ok [(prop, anyToBytes val)]) := by
  unfold clientGetSecretMap
  rw [hdoc]
  simp only [if_neg hprop]
  rw [hval]
  cases val with
  | null => exact absurd rfl hnn
  | obj fields =>
    exact ⟨fun fs hfs => (by cases hfs; rfl),
           fun h => absurd rfl (h fields)⟩
  | bool b => exact ⟨fun fs hfs => Json.noConfusion hfs, fun _ => rfl⟩
  | num n => exact ⟨fun fs hfs => Json.noConfusion hfs, fun _ => rfl⟩
  | str s => exact ⟨fun fs hfs => Json.noConfusion hfs, fun _ => rfl⟩
  | arr xs => exact ⟨fun fs hfs => Json.noConfusion hfs, fun _ => rfl⟩

/-- C6 witness: over `{"a": 1, "b": {"c": "x"}}`, selecting `"b"`
returns the one-entry byte map `{"c": "x"}` and selecting `"a"` returns
`{"a": "1"}`. -/
theorem getSecretMap_property_resolution_witness :
    clientGetSecretMap
      (vaultOfDocs [("k", some [("a", .num 1), ("b", .obj [("c", .str "x")])])])
      ⟨"k", "b", ""⟩ = .ok [("c", strBytes "x")] ∧
    clientGetSecretMap
      (vaultOfDocs [("k", some [("a", .num 1), ("b", .obj [("c", .str "x")])])])
      ⟨"k", "a", ""⟩ = .ok [("a", strBytes "1")] :=
  ⟨(getSecretMap_property_resolution _ "k" "b" ""
      [("a", .num 1), ("b", .obj [("c", .str "x")])] (.obj [("c", .str "x")])
      (by decide) rfl rfl (by intro h; cases h)).1 [("c", .str "x")] rfl,
   (getSecretMap_property_resolution _ "k" "a" ""
      [("a", .num 1), ("b", .obj [("c", .str "x")])] (.num 1)
      (by decide) rfl rfl (by intro h; cases h)).2
      (by intro fields h; cases h)⟩

/-! ## C8: idempotent delete -/

/-- C8: `DeleteSecret` returns success exactly when the underlying
vault delete succeeds or fails with a not-found-classified error, and
it propagates every other error unchanged. -/
theorem deleteSecret_idempotent (v : VaultT) (key : String) :
    (clientDeleteSecret v key = none ↔
      v.deleteSecret key = none ∨
        ∃ e, v.deleteSecret key = some e ∧ isNotFound e = true) ∧
    (∀ e, v.deleteSecret key = some e → isNotFound e = false →
      clientDeleteSecret v key = some e) := by
  unfold clientDeleteSecret
  cases h : v.deleteSecret key with
  | none => simp [h]
  | some e =>
    cases hn : isNotFound e with
    | true => simp [h, hn]
    | false => simp [h, hn]

/-- C8 witness: a vault whose delete fails with the PrivX message
`"Secret not found: k"` (classified not-found) still reports success. -/
theorem deleteSecret_idempotent_witness :
    clientDeleteSecret
      { getSecret := fun _ => .error (.vaultMsg "x")
        getSecrets := fun _ _ => .ok []
        deleteSecret := fun _ => some (.vaultMsg "Secret not found: k") }
      "k" = none :=
  (deleteSecret_idempotent _ "k").1.mpr (Or.inr ⟨_, rfl, by decide⟩)

/-! ## C10: `PushSecret` with an absent source key -/

/-- C10: when the selected `secretKey` is absent from the source
secret's data, `PushSecret` does not fail with a missing-key error: it
builds (and sends) a create/replace request whose single-field document
maps `secretKey` to the nil value that the Go map read produced. -/
theorem pushSecret_absent_key_pushes_nil (cfg : ClientCfg)
    (create : SecretRequest → Option GoErr)
    (secretName : String) (secretData : List (String × List Nat))
    (remoteKey secretKey : String)
    (hmiss : lookupA secretData secretKey = none)
    (hname : ¬(remoteKey = "" ∧ secretName = "")) :
    buildPushRequest cfg secretName secretData remoteKey secretKey =
      .ok { name := if remoteKey = "" then secretName else remoteKey
            readRoles := packRoles cfg.defaultReadRoles
            writeRoles := packRoles cfg.defaultWriteRoles
            data := [(secretKey, none)] } ∧
    clientPushSecret create cfg secretName secretData remoteKey secretKey =
      create { name := if remoteKey = "" then secretName else remoteKey
               readRoles := packRoles cfg.defaultReadRoles
               writeRoles := packRoles cfg.defaultWriteRoles
               data := [(secretKey, none)] } := by
  have hres : (if remoteKey = "" then secretName else remoteKey) ≠ "" := by
    by_cases hr : remoteKey = ""
    · simp only [hr, if_pos rfl]
      intro hs
      exact hname ⟨hr, hs⟩
    · simp only [if_neg hr]
      exact hr
  unfold clientPushSecret buildPushRequest
  rw [if_neg hres, hmiss]
  exact ⟨rfl, rfl⟩

/-- C10 witness: pushing key `"pw"` from a source secret that has no
`"pw"` entry issues a create request for `{"pw": nil}`. -/
theorem pushSecret_absent_key_pushes_nil_witness :
    buildPushRequest ⟨["r1"], ["w1"]⟩ "src" [("other", [1, 2])] "dest" "pw" =
      .ok { name := "dest"
            readRoles := [⟨"r1", ""⟩]
            writeRoles := [⟨"w1", ""⟩]
            data := [("pw", none)] } :=
  (pushSecret_absent_key_pushes_nil ⟨["r1"], ["w1"]⟩ (fun _ => none)
    "src" [("other", [1, 2])] "dest" "pw" (by decide)
    (by intro h; exact absurd h.1 (by decide))).1

/-! ## C5: base64 round-trip -/

/-- Decoding a base64 symbol undoes encoding, for both alphabets. -/
theorem b64DecChar_b64Char : ∀ (url : Bool), ∀ n < 64,
    b64DecChar url (b64Char url n) = some n := by decide

/-- No base64 symbol is the padding byte `=`. -/
theorem b64Char_ne_pad : ∀ (url : Bool), ∀ n < 64, b64Char url n ≠ 61 := by
  decide

/-- Decoding inverts encoding on byte sequences, for both alphabets. -/
theorem b64dec_b64encode (url : Bool) :
    ∀ x : List Nat, (∀ b ∈ x, b < 256) → b64dec url (b64encode url x) = some x
  | [], _ => rfl
  | [b0], h => by
    have hb0 : b0 < 256 := h b0 (by simp)
    have e0 := b64DecChar_b64Char url (b0 / 4) (by omega)
    have e1 := b64DecChar_b64Char url (b0 % 4 * 16) (by omega)
    simp [b64encode, b64dec, e0, e1]
    all_goals omega
  | [b0, b1], h => by
    have hb0 : b0 < 256 := h b0 (by simp)
    have hb1 : b1 < 256 := h b1 (by simp)
    have e0 := b64DecChar_b64Char url (b0 / 4) (by omega)
    have e1 := b64DecChar_b64Char url (b0 % 4 * 16 + b1 / 16) (by omega)
    have e2 := b64DecChar_b64Char url (b1 % 16 * 4) (by omega)
    have n2 := b64Char_ne_pad url (b1 % 16 * 4) (by omega)
    simp [b64encode, b64dec, e0, e1, e2, n2]
    all_goals omega
  | b0 :: b1 :: b2 :: b3 :: rest, h => by
    have hb0 : b0 < 256 := h b0 (by simp)
    have hb1 : b1 < 256 := h b1 (by simp)
    have hb2 : b2 < 256 := h b2 (by simp)
    have ih := b64dec_b64encode url (b3 :: rest)
      (fun b hb => h b (by simp at hb; rcases hb with hb | hb <;> simp [hb]))
    have e0 := b64DecChar_b64Char url (b0 / 4) (by omega)
    have e1 := b64DecChar_b64Char url (b0 % 4 * 16 + b1 / 16) (by omega)
    have e2 := b64DecChar_b64Char url (b1 % 16 * 4 + b2 / 64) (by omega)
    have e3 := b64DecChar_b64Char url (b2 % 64) (by omega)
    have n2 := b64Char_ne_pad url (b1 % 16 * 4 + b2 / 64) (by omega)
    have n3 := b64Char_ne_pad url (b2 % 64) (by omega)
    simp [b64encode, b64dec, e0, e1, e2, e3, n2, n3, ih]
    all_goals omega
  | [b0, b1, b2], h => by
    have hb0 : b0 < 256 := h b0 (by simp)
    have hb1 : b1 < 256 := h b1 (by simp)
    have hb2 : b2 < 256 := h b2 (by simp)
    have e0 := b64DecChar_b64Char url (b0 / 4) (by omega)
    have e1 := b64DecChar_b64Char url (b0 % 4 * 16 + b1 / 16) (by omega)
    have e2 := b64DecChar_b64Char url (b1 % 16 * 4 + b2 / 64) (by omega)
    have e3 := b64DecChar_b64Char url (b2 % 64) (by omega)
    have n2 := b64Char_ne_pad url (b1 % 16 * 4 + b2 / 64) (by omega)
    have n3 := b64Char_ne_pad url (b2 % 64) (by omega)
    simp [b64encode, b64dec, e0, e1, e2, e3, n2, n3]
    all_goals omega

/-- C5: decoding the standard-alphabet base64 encoding of any byte
sequence with strategy `Base64` succeeds and returns the original
bytes. -/
theorem decode_base64_roundtrip (x : List Nat) (h : ∀ b ∈ x, b < 256) :
    decode (b64encode false x) "Base64" = .ok x := by
  unfold decode
  rw [if_pos rfl, b64dec_b64encode false x h]

/-- C5 witness: the bytes of `"hi"` survive the round trip. -/
theorem decode_base64_roundtrip_witness :
    decode (b64encode false [104, 105]) "Base64" = .ok [104, 105] :=
  decode_base64_roundtrip [104, 105] (by decide)

/-! ## C3 and C9: pagination over a list-backed vault -/

/-- The entries whose names match the filter, each paired with its full
document JSON — what an error-free enumeration returns for them. -/
def filtResults (filt : String → Bool)
    (l : List (String × Option (List (String × Json)))) :
    List (String × List Nat) :=
  (l.filter (fun p => filt p.1)).map (fun p => (p.1, docBytes (p.2.getD [])))

/-- The successful-page-size trace of a full enumeration over `n`
entries: full pages of 100, then the final short page (a `0`-sized
fetch when `n` is a multiple of 100). -/
def pageTrace (n : Nat) : List Nat :=
  if n = 0 then [0]
  else if n < 100 then [n]
  else 100 :: pageTrace (n - 100)
termination_by n
decreasing_by omega

/-- The page-size trace of an enumeration over `n` entries that aborts
at the entry with index `i` (`i < n`): full pages up to and including
the page holding index `i`. -/
def traceAbort (n i : Nat) : List Nat :=
  if i < 100 then [min 100 n]
  else 100 :: traceAbort (n - 100) (i - 100)
termination_by i
decreasing_by omega

/-- Closed form of `pageTrace`: every fetched page before the last has
size exactly 100, and the last has size `n % 100 < 100` — the loop
stops exactly at the first page of size zero or smaller than 100. -/
theorem pageTrace_closed (n : Nat) :
    pageTrace n = List.replicate (n / 100) 100 ++ [n % 100] := by
  induction n using Nat.strong_induction_on with
  | _ n ih =>
    by_cases h0 : n = 0
    · subst h0
      unfold pageTrace
      norm_num
    · by_cases hs : n < 100
      · unfold pageTrace
        rw [if_neg h0, if_pos hs]
        have h1 : n / 100 = 0 := by omega
        have h2 : n % 100 = n := by omega
        rw [h1, h2]
        rfl
      · unfold pageTrace
        rw [if_neg h0, if_neg hs, ih (n - 100) (by omega)]
        have h1 : n / 100 = (n - 100) / 100 + 1 := by omega
        have h2 : n % 100 = (n - 100) % 100 := by omega
        rw [h1, h2, List.replicate_succ]
        rfl

/-- First-match lookup finds the stored value of any entry when names
are unique. -/
theorem lookupA_mem_nodup {α : Type} :
    ∀ (l : List (String × α)) (p : String × α), p ∈ l →
      (l.map Prod.fst).Nodup → lookupA l p.1 = some p.2
  | [], p, h, _ => absurd h (List.not_mem_nil p)
  | q :: rest, p, h, hnd => by
    obtain ⟨qk, qv⟩ := q
    obtain ⟨pk, pv⟩ := p
    have hnd' := List.nodup_cons.mp hnd
    rcases List.mem_cons.mp h with he | hm
    · cases he
      simp [lookupA]
    · have hpk : pk ∈ rest.map Prod.fst := List.mem_map_of_mem Prod.fst hm
      have hne : qk ≠ pk := fun he => hnd'.1 (he ▸ hpk)
      show (if qk = pk then some qv else lookupA rest pk) = some pv
      rw [if_neg hne]
      exact lookupA_mem_nodup rest (pk, pv) hm hnd'.2

/-- Map assignment of a fresh key appends the binding. -/
theorem updAssoc_append {α : Type} :
    ∀ (m : List (String × α)) (k : String) (v : α),
      k ∉ m.map Prod.fst → updAssoc m k v = m ++ [(k, v)]
  | [], _, _, _ => rfl
  | q :: rest, k, v, h => by
    obtain ⟨qk, qv⟩ := q
    have hne : qk ≠ k := fun he => h (by simp [he])
    show (if qk = k then (k, v) :: rest else (qk, qv) :: updAssoc rest k v) =
      (qk, qv) :: rest ++ [(k, v)]
    rw [if_neg hne, updAssoc_append rest k v (fun hm => h (by simp [hm]))]
    rfl

/-- The function `filtResults` distributes over list append. -/
theorem filtResults_append (filt : String → Bool)
    (l₁ l₂ : List (String × Option (List (String × Json)))) :
    filtResults filt (l₁ ++ l₂) = filtResults filt l₁ ++ filtResults filt l₂ := by
  simp [filtResults, List.filter_append]

/-- Every result key of `filtResults` is an entry name. -/
theorem filtResults_keys (filt : String → Bool)
    (l : List (String × Option (List (String × Json)))) (k : String)
    (hk : k ∈ (filtResults filt l).map Prod.fst) : k ∈ l.map Prod.fst := by
  simp only [filtResults, List.map_map] at hk
  obtain ⟨p, hp, he⟩ := List.mem_map.mp hk
  exact he ▸ List.mem_map_of_mem Prod.fst (List.mem_of_mem_filter hp)

/-- On a list-backed vault with unique names, fetching a listed entry
returns its stored payload. -/
theorem vaultOfDocs_getSecret
    (entries : List (String × Option (List (String × Json))))
    (pk : String) (pd : Option (List (String × Json)))
    (hmem : (pk, pd) ∈ entries) (hnd : (entries.map Prod.fst).Nodup) :
    (vaultOfDocs entries).getSecret pk = .ok ⟨pd⟩ := by
  have hlook := lookupA_mem_nodup entries (pk, pd) hmem hnd
  simp only [vaultOfDocs] at hlook ⊢
  rw [hlook]

/-- Processing one page of listed entries that all resolve with data
appends exactly the filtered, serialized entries to the accumulator. -/
theorem processItems_spec
    (entries : List (String × Option (List (String × Json))))
    (filt : String → Bool) :
    ∀ (page : List (String × Option (List (String × Json))))
      (acc : List (String × List Nat)),
      (entries.map Prod.fst).Nodup →
      (∀ p ∈ page, p ∈ entries) →
      (∀ p ∈ page, filt p.1 = true → p.2.isSome) →
      (∀ p ∈ page, p.1 ∉ acc.map Prod.fst) →
      (page.map Prod.fst).Nodup →
      processItems (vaultOfDocs entries) filt (page.map Prod.fst) acc =
        (acc ++ filtResults filt page, none)
  | [], acc, _, _, _, _, _ => by simp [processItems, filtResults]
  | p :: rest, acc, hnd, hsub, hdata, hfresh, hpnd => by
    obtain ⟨pk, pd⟩ := p
    have hmem : (pk, pd) ∈ entries := hsub _ (List.mem_cons_self _ _)
    have hget := vaultOfDocs_getSecret entries pk pd hmem hnd
    have hpnd' := List.nodup_cons.mp hpnd
    by_cases hf : filt pk = true
    · have hds : pd.isSome := hdata _ (List.mem_cons_self _ _) hf
      obtain ⟨d, hd⟩ := Option.isSome_iff_exists.mp hds
      subst hd
      have hupd : updAssoc acc pk (docBytes d) = acc ++ [(pk, docBytes d)] :=
        updAssoc_append acc pk (docBytes d)
          (hfresh _ (List.mem_cons_self _ _))
      have ih := processItems_spec entries filt rest (acc ++ [(pk, docBytes d)])
        hnd
        (fun q hq => hsub q (List.mem_cons_of_mem _ hq))
        (fun q hq => hdata q (List.mem_cons_of_mem _ hq))
        (fun q hq => by
          intro hqk
          rw [List.map_append] at hqk
          rcases List.mem_append.mp hqk with hqa | hqb
          · exact hfresh q (List.mem_cons_of_mem _ hq) hqa
          · have hqpk : q.1 = pk := by simpa using hqb
            have hq1 : q.1 ∈ rest.map Prod.fst :=
              List.mem_map_of_mem Prod.fst hq
            rw [hqpk] at hq1
            exact hpnd'.1 hq1)
        hpnd'.2
      show processItems (vaultOfDocs entries) filt (pk :: rest.map Prod.fst) acc =
        (acc ++ filtResults filt ((pk, some d) :: rest), none)
      rw [processItems, hf, if_pos rfl, hget]
      show processItems (vaultOfDocs entries) filt (rest.map Prod.fst)
        (updAssoc acc pk (docBytes d)) = _
      rw [hupd, ih]
      simp [filtResults, hf, List.append_assoc]
    · have hfb : filt pk = false := by
        cases hv : filt pk
        · rfl
        · exact absurd hv hf
      have ih := processItems_spec entries filt rest acc
        hnd
        (fun q hq => hsub q (List.mem_cons_of_mem _ hq))
        (fun q hq => hdata q (List.mem_cons_of_mem _ hq))
        (fun q hq => hfresh q (List.mem_cons_of_mem _ hq))
        hpnd'.2
      show processItems (vaultOfDocs entries) filt (pk :: rest.map Prod.fst) acc =
        (acc ++ filtResults filt ((pk, pd) :: rest), none)
      rw [processItems, hfb, if_neg (by simp), ih]
      simp [filtResults, hfb]

/-- The page listing of a list-backed vault. -/
theorem vaultOfDocs_getSecrets
    (entries : List (String × Option (List (String × Json))))
    (offset limit : Nat) :
    (vaultOfDocs entries).getSecrets offset limit =
      .ok (((entries.drop offset).take limit).map Prod.fst) := by
  simp [vaultOfDocs, List.map_take, List.map_drop]

/-- One successful-fetch step of the enumeration loop. -/
theorem getAllLoop_succ_ok (v : VaultT) (filt : String → Bool)
    (fuel offset : Nat) (acc : List (String × List Nat)) (tr : List Nat)
    (items : List String) (h : v.getSecrets offset 100 = .ok items) :
    getAllLoop v filt (fuel + 1) offset acc tr =
      (if items.length = 0 then some (acc, none, tr ++ [0])
       else
        match processItems v filt items acc with
        | (acc2, some e) => some (acc2, some e, tr ++ [items.length])
        | (acc2, none) =>
          if items.length < 100 then some (acc2, none, tr ++ [items.length])
          else getAllLoop v filt fuel (offset + 100) acc2 (tr ++ [items.length])) := by
  rw [getAllLoop, h]

/-- One failing-fetch step of the enumeration loop. -/
theorem getAllLoop_succ_err (v : VaultT) (filt : String → Bool)
    (fuel offset : Nat) (acc : List (String × List Nat)) (tr : List Nat)
    (e : GoErr) (h : v.getSecrets offset 100 = .error e) :
    getAllLoop v filt (fuel + 1) offset acc tr = some (acc, some e, tr) := by
  rw [getAllLoop, h]

/-- The enumeration loop over a list-backed vault whose matched entries
all carry data: with enough fuel it terminates without error, appends
the filtered serialized entries from `offset` on, and fetches pages per
`pageTrace`. -/
theorem getAllLoop_spec
    (entries : List (String × Option (List (String × Json))))
    (filt : String → Bool)
    (hnd : (entries.map Prod.fst).Nodup)
    (hdata : ∀ p ∈ entries, filt p.1 = true → p.2.isSome) :
    ∀ (fuel offset : Nat) (acc : List (String × List Nat)) (tr : List Nat),
      (entries.length - offset) / 100 < fuel →
      (∀ p ∈ entries.drop offset, p.1 ∉ acc.map Prod.fst) →
      getAllLoop (vaultOfDocs entries) filt fuel offset acc tr =
        some (acc ++ filtResults filt (entries.drop offset), none,
              tr ++ pageTrace (entries.length - offset)) := by
  intro fuel
  induction fuel with
  | zero =>
    intro offset acc tr hfuel hfresh
    exact absurd hfuel (Nat.not_lt_zero _)
  | succ fuel ih =>
    intro offset acc tr hfuel hfresh
    have hlen : (entries.drop offset).length = entries.length - offset :=
      List.length_drop offset entries
    have hdnd : ((entries.drop offset).map Prod.fst).Nodup := by
      rw [List.map_drop]
      exact List.Nodup.sublist (List.drop_sublist offset (entries.map Prod.fst)) hnd
    rw [getAllLoop_succ_ok (vaultOfDocs entries) filt fuel offset acc tr
      (((entries.drop offset).take 100).map Prod.fst)
      (vaultOfDocs_getSecrets entries offset 100)]
    rw [List.length_map]
    by_cases h0 : entries.length ≤ offset
    · have hde : entries.drop offset = [] := List.drop_eq_nil_of_le h0
      have hn0 : entries.length - offset = 0 := by omega
      rw [hde, hn0]
      rw [if_pos (by simp)]
      simp [filtResults, pageTrace]
    · push_neg at h0
      have hpos : 0 < (entries.drop offset).length := by omega
      by_cases hsmall : (entries.drop offset).length < 100
      · have hpe : (entries.drop offset).take 100 = entries.drop offset :=
          List.take_of_length_le (by omega)
        rw [hpe]
        rw [if_neg (by omega)]
        rw [processItems_spec entries filt (entries.drop offset) acc hnd
          (fun p hp => List.drop_subset offset entries hp)
          (fun p hp => hdata p (List.drop_subset offset entries hp))
          hfresh hdnd]
        dsimp only
        rw [if_pos (by omega)]
        have htr : pageTrace (entries.length - offset) =
            [(entries.drop offset).length] := by
          unfold pageTrace
          rw [if_neg (by omega), if_pos (by omega), hlen]
        rw [htr]
      · push_neg at hsmall
        have hplen : ((entries.drop offset).take 100).length = 100 := by
          rw [List.length_take]
          omega
        have hpnodup : (((entries.drop offset).take 100).map Prod.fst).Nodup := by
          rw [List.map_take]
          exact List.Nodup.sublist
            (List.take_sublist 100 ((entries.drop offset).map Prod.fst)) hdnd
        rw [processItems_spec entries filt ((entries.drop offset).take 100) acc hnd
          (fun p hp => List.drop_subset offset entries
            (List.take_subset 100 (entries.drop offset) hp))
          (fun p hp => hdata p (List.drop_subset offset entries
            (List.take_subset 100 (entries.drop offset) hp)))
          (fun p hp => hfresh p (List.take_subset 100 (entries.drop offset) hp))
          hpnodup]
        dsimp only
        rw [if_neg (by omega), if_neg (by omega)]
        have hdd : (entries.drop offset).drop 100 = entries.drop (offset + 100) :=
          List.drop_drop 100 offset entries
        have hfresh' : ∀ p ∈ entries.drop (offset + 100),
            p.1 ∉ (acc ++ filtResults filt ((entries.drop offset).take 100)).map
              Prod.fst := by
          intro p hp
          rw [← hdd] at hp
          rw [List.map_append, List.mem_append]
          rintro (hqa | hqb)
          · exact hfresh p (List.drop_subset 100 (entries.drop offset) hp) hqa
          · have h1 : p.1 ∈ (((entries.drop offset).take 100).map Prod.fst) :=
              filtResults_keys filt _ p.1 hqb
            have h2 : p.1 ∈ ((entries.drop offset).map Prod.fst).drop 100 := by
              rw [← List.map_drop]
              exact List.mem_map_of_mem Prod.fst hp
            have h3 : p.1 ∈ ((entries.drop offset).map Prod.fst).take 100 := by
              rw [List.map_take] at h1
              exact h1
            exact List.disjoint_take_drop hdnd (le_refl 100) h3 h2
        have hrec := ih (offset + 100)
          (acc ++ filtResults filt ((entries.drop offset).take 100)) (tr ++ [100])
          (by omega) hfresh'
        rw [hplen, hrec]
        have hsplit : filtResults filt ((entries.drop offset).take 100) ++
            filtResults filt (entries.drop (offset + 100)) =
            filtResults filt (entries.drop offset) := by
          rw [← hdd, ← filtResults_append, List.take_append_drop]
        have htr : pageTrace (entries.length - offset) =
            100 :: pageTrace (entries.length - (offset + 100)) := by
          conv_lhs => unfold pageTrace
          rw [if_neg (by omega), if_neg (by omega)]
          have : entries.length - offset - 100 = entries.length - (offset + 100) := by
            omega
          rw [this]
        rw [htr]
        rw [List.append_assoc, hsplit]
        rw [List.append_assoc]
        rfl

/-- With no `Path`/`Tags`, the default conversion strategy, and a name
filter, `GetAllSecrets` passes its guards and runs the page loop. -/
theorem clientGetAllSecrets_run (v : VaultT) (filt : String → Bool) (fuel : Nat) :
    clientGetAllSecrets v ⟨none, none, "Default", some filt⟩ fuel =
      getAllLoop v filt fuel 0 [] [] := rfl

/-- C3: over any list-backed namespace whose documents all carry data,
`GetAllSecrets` fetches pages of fixed size 100 with the offset
advancing by 100, every fetched page except the last has size 100 and
the last has size `n % 100 < 100` (the loop stops exactly at the first
page of size zero or smaller than 100), and the result holds exactly
the entries whose name matches the filter, each valued by its full
document JSON. -/
theorem getAllSecrets_pagination
    (entries : List (String × Option (List (String × Json))))
    (filt : String → Bool) (fuel : Nat)
    (hnd : (entries.map Prod.fst).Nodup)
    (hdata : ∀ p ∈ entries, p.2.isSome)
    (hfuel : entries.length / 100 < fuel) :
    clientGetAllSecrets (vaultOfDocs entries) ⟨none, none, "Default", some filt⟩
        fuel =
      some (filtResults filt entries, none,
            List.replicate (entries.length / 100) 100 ++
              [entries.length % 100]) := by
  have h := getAllLoop_spec entries filt hnd (fun p hp _ => hdata p hp)
    fuel 0 [] [] (by simpa using hfuel) (by simp)
  rw [clientGetAllSecrets_run, h]
  rw [List.drop_zero, Nat.sub_zero, List.nil_append, List.nil_append,
      pageTrace_closed]

/-- The `^foo` matcher of the spec's 250-entry scenario (modelled from
the spec: the compiled regular expression `^foo` tests whether the name
starts with `foo`). -/
def fooMatch : String → Bool := fun s => s.startsWith "foo"

/-- The name of the `i`-th entry of the 250-entry scenario: a `foo` or
`bar` prefix followed by `i` filler characters (so the name's length
determines `i`). -/
def nameOf (i : Nat) : String :=
  (if i % 5 = 0 then "foo" else "bar") ++ String.mk (List.replicate i 'a')

/-- A 250-entry namespace: every fifth name starts with `foo`, all
names distinct, every document present. -/
def entries250 : List (String × Option (List (String × Json))) :=
  (List.range 250).map (fun i => (nameOf i, some [("v", Json.num i)]))

/-- The scenario's names encode their index in their length. -/
theorem nameOf_length (i : Nat) : (nameOf i).length = 3 + i := by
  unfold nameOf
  rw [String.length_append]
  by_cases h : i % 5 = 0 <;>
    simp [h, String.length, List.length_replicate]

/-- The scenario's names are pairwise distinct. -/
theorem nameOf_injective : Function.Injective nameOf := by
  intro i j h
  have hl : (nameOf i).length = (nameOf j).length := by rw [h]
  rw [nameOf_length, nameOf_length] at hl
  omega

/-- The 250 entry names contain no duplicate. -/
theorem entries250_names_nodup : (entries250.map Prod.fst).Nodup := by
  unfold entries250
  rw [List.map_map]
  exact (List.nodup_range 250).map nameOf_injective

/-- Every scenario document carries data. -/
theorem entries250_all_data : ∀ p ∈ entries250, p.2.isSome := by
  intro p hp
  obtain ⟨i, -, rfl⟩ := List.mem_map.mp hp
  rfl

/-- The scenario has 250 entries. -/
theorem entries250_length : entries250.length = 250 := by
  unfold entries250
  rw [List.length_map, List.length_range]

/-- C3 witness: the spec's 250-entry scenario issues exactly 3 page
fetches, of sizes 100, 100 and 50. -/
theorem getAllSecrets_pagination_witness :
    clientGetAllSecrets (vaultOfDocs entries250)
        ⟨none, none, "Default", some fooMatch⟩ 3 =
      some (filtResults fooMatch entries250, none, [100, 100, 50]) := by
  have h := getAllSecrets_pagination entries250 fooMatch 3
    entries250_names_nodup entries250_all_data
    (by rw [entries250_length]; norm_num)
  rw [h, entries250_length]
  rfl

/-- C9 counterexample: the claim says partial results are discarded on
error.  Over the namespace `["fooA" ↦ {"k":"v"}, "fooB" ↦ no data]` the
call aborts with `ErrSecretDataMissing`, but the Go function returns
the partial map — already holding `fooA` — alongside the error rather
than discarding it. -/
theorem getAllSecrets_partial_kept_counterexample :
    clientGetAllSecrets
        (vaultOfDocs [("fooA", some [("k", Json.str "v")]), ("fooB", none)])
        ⟨none, none, "Default", none⟩ 5 =
      some ([("fooA", docBytes [("k", Json.str "v")])],
            some (.secretDataMissing ""), [2]) ∧
    ([("fooA", docBytes [("k", Json.str "v")])] : List (String × List Nat)) ≠
      [] :=
  ⟨rfl, by simp⟩

/-! ## C9: a vault model in which every failure mode of an enumeration
can occur

The enumeration can fail three ways: a page fetch fails, a document
fetch fails, or a fetched document has no data payload.  Entries of
this richer list-backed vault carry one of those document outcomes, and
the page listing can be made to fail at a chosen offset. -/

/-- What fetching one stored document yields: a document with data, a
document whose `Data` pointer is nil, or a transport failure. -/
inductive DocOutcome where
  /-- The fetch succeeds and the document carries this payload. -/
  | present (d : List (String × Json))
  /-- The fetch succeeds but the document's `Data` pointer is nil. -/
  | missing
  /-- The fetch itself fails with this transport error. -/
  | failed (e : GoErr)

/-- The fetch result of a document outcome. -/
def outcomeSecret : DocOutcome → Except GoErr VSecret
  | .present d => .ok ⟨some d⟩
  | .missing => .ok ⟨none⟩
  | .failed e => .error e

/-- The error with which the enumeration aborts on a bad matched entry:
`ErrSecretDataMissing` for a nil payload, the transport error itself
for a failed fetch.  (The `present` case never aborts; the value is a
placeholder.) -/
def abortErr : DocOutcome → GoErr
  | .present _ => .secretDataMissing ""
  | .missing => .secretDataMissing ""
  | .failed e => e

/-- The data payload of a present outcome (and `[]` otherwise; only
applied to present outcomes). -/
def outData : DocOutcome → List (String × Json)
  | .present d => d
  | .missing => []
  | .failed _ => []

/-- The matched entries of an outcome list, each valued by its full
document JSON — what an enumeration returns for a clean stretch. -/
def outResults (filt : String → Bool) (l : List (String × DocOutcome)) :
    List (String × List Nat) :=
  (l.filter (fun p => filt p.1)).map (fun p => (p.1, docBytes (outData p.2)))

/-- A vault backed by a list of (name, document outcome) entries whose
page listing fails with `fe.2` when queried at offset `fe.1` (and the
listing never fails when `pageFail` is `none`). -/
def vaultOfOutcomes (entries : List (String × DocOutcome))
    (pageFail : Option (Nat × GoErr)) : VaultT where
  getSecret := fun n =>
    match lookupA entries n with
    | some b => outcomeSecret b
    | none => .error (.vaultMsg ("PrivX API error: Secret not found: " ++ n))
  getSecrets := fun offset limit =>
    match pageFail with
    | some fe =>
      if offset = fe.1 then .error fe.2
      else .ok (((entries.map Prod.fst).drop offset).take limit)
    | none => .ok (((entries.map Prod.fst).drop offset).take limit)
  deleteSecret := fun _ => none

/-- The function `outResults` distributes over list append. -/
theorem outResults_append (filt : String → Bool)
    (l₁ l₂ : List (String × DocOutcome)) :
    outResults filt (l₁ ++ l₂) = outResults filt l₁ ++ outResults filt l₂ := by
  simp [outResults, List.filter_append]

/-- Every result key of `outResults` is an entry name. -/
theorem outResults_keys (filt : String → Bool)
    (l : List (String × DocOutcome)) (k : String)
    (hk : k ∈ (outResults filt l).map Prod.fst) : k ∈ l.map Prod.fst := by
  simp only [outResults, List.map_map] at hk
  obtain ⟨p, hp, he⟩ := List.mem_map.mp hk
  exact he ▸ List.mem_map_of_mem Prod.fst (List.mem_of_mem_filter hp)

/-- On an outcome-backed vault with unique names, fetching a listed
entry yields its stored outcome (whatever the page-failure setting). -/
theorem vaultOfOutcomes_getSecret (entries : List (String × DocOutcome))
    (pageFail : Option (Nat × GoErr)) (pk : String) (pd : DocOutcome)
    (hmem : (pk, pd) ∈ entries) (hnd : (entries.map Prod.fst).Nodup) :
    (vaultOfOutcomes entries pageFail).getSecret pk = outcomeSecret pd := by
  have hlook := lookupA_mem_nodup entries (pk, pd) hmem hnd
  simp only [vaultOfOutcomes] at hlook ⊢
  rw [hlook]

/-- The page listing of an outcome-backed vault at a non-failing
offset. -/
theorem vaultOfOutcomes_getSecrets_ok (entries : List (String × DocOutcome))
    (pageFail : Option (Nat × GoErr)) (offset limit : Nat)
    (h : ∀ fe, pageFail = some fe → offset ≠ fe.1) :
    (vaultOfOutcomes entries pageFail).getSecrets offset limit =
      .ok (((entries.drop offset).take limit).map Prod.fst) := by
  cases pageFail with
  | none => simp [vaultOfOutcomes, List.map_take, List.map_drop]
  | some fe =>
    simp only [vaultOfOutcomes]
    rw [if_neg (h fe rfl)]
    rw [List.map_take, List.map_drop]

/-- The page listing of an outcome-backed vault at the failing
offset. -/
theorem vaultOfOutcomes_getSecrets_err (entries : List (String × DocOutcome))
    (foff : Nat) (e : GoErr) (limit : Nat) :
    (vaultOfOutcomes entries (some (foff, e))).getSecrets foff limit =
      .error e := by
  simp [vaultOfOutcomes]

/-- Processing one page of listed entries whose matched documents are
all present appends exactly the matched, serialized entries to the
accumulator. -/
theorem processItems_outcomes (entries : List (String × DocOutcome))
    (pageFail : Option (Nat × GoErr)) (filt : String → Bool) :
    ∀ (page : List (String × DocOutcome)) (acc : List (String × List Nat)),
      (entries.map Prod.fst).Nodup →
      (∀ p ∈ page, p ∈ entries) →
      (∀ p ∈ page, filt p.1 = true → ∃ d, p.2 = .present d) →
      (∀ p ∈ page, p.1 ∉ acc.map Prod.fst) →
      (page.map Prod.fst).Nodup →
      processItems (vaultOfOutcomes entries pageFail) filt
          (page.map Prod.fst) acc =
        (acc ++ outResults filt page, none)
  | [], acc, _, _, _, _, _ => by simp [processItems, outResults]
  | p :: rest, acc, hnd, hsub, hdata, hfresh, hpnd => by
    obtain ⟨pk, pd⟩ := p
    have hmem : (pk, pd) ∈ entries := hsub _ (List.mem_cons_self _ _)
    have hget := vaultOfOutcomes_getSecret entries pageFail pk pd hmem hnd
    have hpnd' := List.nodup_cons.mp hpnd
    by_cases hf : filt pk = true
    · obtain ⟨d, hd⟩ := hdata _ (List.mem_cons_self _ _) hf
      subst hd
      have hupd : updAssoc acc pk (docBytes d) = acc ++ [(pk, docBytes d)] :=
        updAssoc_append acc pk (docBytes d)
          (hfresh _ (List.mem_cons_self _ _))
      have ih := processItems_outcomes entries pageFail filt rest
        (acc ++ [(pk, docBytes d)]) hnd
        (fun q hq => hsub q (List.mem_cons_of_mem _ hq))
        (fun q hq => hdata q (List.mem_cons_of_mem _ hq))
        (fun q hq => by
          intro hqk
          rw [List.map_append] at hqk
          rcases List.mem_append.mp hqk with hqa | hqb
          · exact hfresh q (List.mem_cons_of_mem _ hq) hqa
          · have hqpk : q.1 = pk := by simpa using hqb
            have hq1 : q.1 ∈ rest.map Prod.fst :=
              List.mem_map_of_mem Prod.fst hq
            rw [hqpk] at hq1
            exact hpnd'.1 hq1)
        hpnd'.2
      show processItems (vaultOfOutcomes entries pageFail) filt
        (pk :: rest.map Prod.fst) acc =
        (acc ++ outResults filt ((pk, .present d) :: rest), none)
      rw [processItems, hf, if_pos rfl, hget]
      show processItems (vaultOfOutcomes entries pageFail) filt
        (rest.map Prod.fst) (updAssoc acc pk (docBytes d)) = _
      rw [hupd, ih]
      simp [outResults, outData, hf, List.append_assoc]
    · have hfb : filt pk = false := by
        revert hf
        cases filt pk <;> simp
      have ih := processItems_outcomes entries pageFail filt rest acc hnd
        (fun q hq => hsub q (List.mem_cons_of_mem _ hq))
        (fun q hq => hdata q (List.mem_cons_of_mem _ hq))
        (fun q hq => hfresh q (List.mem_cons_of_mem _ hq))
        hpnd'.2
      show processItems (vaultOfOutcomes entries pageFail) filt
        (pk :: rest.map Prod.fst) acc =
        (acc ++ outResults filt ((pk, pd) :: rest), none)
      rw [processItems, hfb, if_neg (by simp), ih]
      simp [outResults, hfb]

/-- Processing a page that holds — after a clean matched stretch — a
matched entry whose document fetch fails or carries no data: the clean
entries are accumulated, then the pass stops with that entry's error;
entries after it are never fetched. -/
theorem processItems_outcomes_abort (entries : List (String × DocOutcome))
    (pageFail : Option (Nat × GoErr)) (filt : String → Bool) :
    ∀ (g : List (String × DocOutcome)) (bn : String) (b : DocOutcome)
      (r : List (String × DocOutcome)) (acc : List (String × List Nat)),
      (entries.map Prod.fst).Nodup →
      (∀ p ∈ g, p ∈ entries) →
      (bn, b) ∈ entries →
      (∀ p ∈ g, filt p.1 = true → ∃ d, p.2 = .present d) →
      (∀ p ∈ g, p.1 ∉ acc.map Prod.fst) →
      (g.map Prod.fst).Nodup →
      filt bn = true →
      (∀ d, b ≠ .present d) →
      processItems (vaultOfOutcomes entries pageFail) filt
          ((g ++ (bn, b) :: r).map Prod.fst) acc =
        (acc ++ outResults filt g, some (abortErr b))
  | [], bn, b, r, acc, hnd, _, hbmem, _, _, _, hbf, hbad => by
    have hget := vaultOfOutcomes_getSecret entries pageFail bn b hbmem hnd
    show processItems (vaultOfOutcomes entries pageFail) filt
      (bn :: r.map Prod.fst) acc = (acc ++ outResults filt [], some (abortErr b))
    rw [processItems, hbf, if_pos rfl, hget]
    cases b with
    | present d => exact absurd rfl (hbad d)
    | missing => simp [outcomeSecret, abortErr, outResults]
    | failed e => simp [outcomeSecret, abortErr, outResults]
  | p :: g, bn, b, r, acc, hnd, hsub, hbmem, hdata, hfresh, hgnd, hbf, hbad => by
    obtain ⟨pk, pd⟩ := p
    have hmem : (pk, pd) ∈ entries := hsub _ (List.mem_cons_self _ _)
    have hget := vaultOfOutcomes_getSecret entries pageFail pk pd hmem hnd
    have hgnd' := List.nodup_cons.mp hgnd
    by_cases hf : filt pk = true
    · obtain ⟨d, hd⟩ := hdata _ (List.mem_cons_self _ _) hf
      subst hd
      have hupd : updAssoc acc pk (docBytes d) = acc ++ [(pk, docBytes d)] :=
        updAssoc_append acc pk (docBytes d) (hfresh _ (List.mem_cons_self _ _))
      have ih := processItems_outcomes_abort entries pageFail filt g bn b r
        (acc ++ [(pk, docBytes d)]) hnd
        (fun q hq => hsub q (List.mem_cons_of_mem _ hq)) hbmem
        (fun q hq => hdata q (List.mem_cons_of_mem _ hq))
        (fun q hq => by
          intro hqk
          rw [List.map_append] at hqk
          rcases List.mem_append.mp hqk with hqa | hqb
          · exact hfresh q (List.mem_cons_of_mem _ hq) hqa
          · have hqpk : q.1 = pk := by simpa using hqb
            have hq1 : q.1 ∈ g.map Prod.fst :=
              List.mem_map_of_mem Prod.fst hq
            rw [hqpk] at hq1
            exact hgnd'.1 hq1)
        hgnd'.2 hbf hbad
      show processItems (vaultOfOutcomes entries pageFail) filt
        (pk :: (g ++ (bn, b) :: r).map Prod.fst) acc = _
      rw [processItems, hf, if_pos rfl, hget]
      show processItems (vaultOfOutcomes entries pageFail) filt
        ((g ++ (bn, b) :: r).map Prod.fst)
        (updAssoc acc pk (docBytes d)) = _
      rw [hupd, ih]
      simp [outResults, outData, hf, List.append_assoc]
    · have hfb : filt pk = false := by
        revert hf
        cases filt pk <;> simp
      have ih := processItems_outcomes_abort entries pageFail filt g bn b r acc
        hnd (fun q hq => hsub q (List.mem_cons_of_mem _ hq)) hbmem
        (fun q hq => hdata q (List.mem_cons_of_mem _ hq))
        (fun q hq => hfresh q (List.mem_cons_of_mem _ hq))
        hgnd'.2 hbf hbad
      show processItems (vaultOfOutcomes entries pageFail) filt
        (pk :: (g ++ (bn, b) :: r).map Prod.fst) acc = _
      rw [processItems, hfb, if_neg (by simp), ih]
      simp [outResults, hfb]

/-- The enumeration loop over an outcome-backed namespace that holds —
after a clean prefix `g` — a matched entry `bn` whose document fetch
fails or whose data payload is missing: the loop accumulates the
matched prefix entries, then aborts on the page holding `bn` with that
entry's error, returning the partial results alongside the error; no
later page is fetched. -/
theorem getAllLoop_outcomes_abort
    (g r : List (String × DocOutcome)) (bn : String) (b : DocOutcome)
    (filt : String → Bool)
    (hnd : ((g ++ (bn, b) :: r).map Prod.fst).Nodup)
    (hgood : ∀ p ∈ g, filt p.1 = true → ∃ d, p.2 = .present d)
    (hbf : filt bn = true) (hbad : ∀ d, b ≠ .present d) :
    ∀ (fuel offset : Nat) (acc : List (String × List Nat)) (tr : List Nat),
      offset ≤ g.length →
      (g.length - offset) / 100 < fuel →
      (∀ p ∈ (g ++ (bn, b) :: r).drop offset, p.1 ∉ acc.map Prod.fst) →
      getAllLoop (vaultOfOutcomes (g ++ (bn, b) :: r) none) filt fuel offset
          acc tr =
        some (acc ++ outResults filt (g.drop offset),
              some (abortErr b),
              tr ++ traceAbort ((g ++ (bn, b) :: r).length - offset)
                (g.length - offset)) := by
  intro fuel
  induction fuel with
  | zero =>
    intro offset acc tr hoff hfuel hfresh
    exact absurd hfuel (Nat.not_lt_zero _)
  | succ fuel ih =>
    intro offset acc tr hoff hfuel hfresh
    have hbmem : (bn, b) ∈ g ++ (bn, b) :: r :=
      List.mem_append_right g (List.mem_cons_self _ _)
    have hde : (g ++ (bn, b) :: r).drop offset =
        g.drop offset ++ (bn, b) :: r := by
      rw [List.drop_append_eq_append_drop]
      have hz : offset - g.length = 0 := by omega
      rw [hz, List.drop_zero]
    have hlen : ((g ++ (bn, b) :: r).drop offset).length =
        (g ++ (bn, b) :: r).length - offset :=
      List.length_drop offset _
    have hgl : (g.drop offset).length = g.length - offset :=
      List.length_drop offset g
    have htotlen : (g ++ (bn, b) :: r).length = g.length + (r.length + 1) := by
      rw [List.length_append, List.length_cons]
    have hdnd : (((g ++ (bn, b) :: r).drop offset).map Prod.fst).Nodup := by
      rw [List.map_drop]
      exact List.Nodup.sublist (List.drop_sublist offset _) hnd
    have hgsub : ∀ p ∈ g.drop offset, p ∈ g ++ (bn, b) :: r :=
      fun p hp => List.mem_append_left _ (List.drop_subset offset g hp)
    have hgdnd : ((g.drop offset).map Prod.fst).Nodup := by
      have h := hdnd
      rw [hde, List.map_append] at h
      exact h.of_append_left
    rw [getAllLoop_succ_ok (vaultOfOutcomes (g ++ (bn, b) :: r) none) filt fuel
      offset acc tr ((((g ++ (bn, b) :: r).drop offset).take 100).map Prod.fst)
      (vaultOfOutcomes_getSecrets_ok _ none offset 100
        (fun fe h => Option.noConfusion h))]
    rw [List.length_map]
    by_cases hc : g.length - offset < 100
    · have h1 : 100 - (g.length - offset) = (100 - (g.length - offset) - 1) + 1 := by
        omega
      have hpage : ((g ++ (bn, b) :: r).drop offset).take 100 =
          g.drop offset ++ (bn, b) :: r.take (100 - (g.length - offset) - 1) := by
        rw [hde, List.take_append_eq_append_take]
        rw [List.take_of_length_le (by omega)]
        rw [hgl, h1, List.take_succ_cons, Nat.add_sub_cancel]
      have hplen : (g.drop offset ++
          (bn, b) :: r.take (100 - (g.length - offset) - 1)).length =
          min 100 ((g ++ (bn, b) :: r).length - offset) := by
        rw [← hpage, List.length_take, hlen]
      rw [hpage]
      rw [if_neg (by simp)]
      rw [processItems_outcomes_abort (g ++ (bn, b) :: r) none filt
        (g.drop offset) bn b (r.take (100 - (g.length - offset) - 1)) acc hnd
        hgsub hbmem
        (fun p hp => hgood p (List.drop_subset offset g hp))
        (fun p hp => hfresh p (hde ▸ List.mem_append_left _ hp))
        hgdnd hbf hbad]
      dsimp only
      have htr : traceAbort ((g ++ (bn, b) :: r).length - offset)
          (g.length - offset) =
          [min 100 ((g ++ (bn, b) :: r).length - offset)] := by
        unfold traceAbort
        rw [if_pos hc]
      rw [htr, hplen]
    · push_neg at hc
      have hpage : ((g ++ (bn, b) :: r).drop offset).take 100 =
          (g.drop offset).take 100 := by
        rw [hde, List.take_append_eq_append_take]
        have hz : 100 - (g.drop offset).length = 0 := by
          rw [hgl]
          omega
        rw [hz, List.take_zero, List.append_nil]
      rw [hpage]
      have hplen : ((g.drop offset).take 100).length = 100 := by
        rw [List.length_take, hgl]
        omega
      rw [hplen]
      rw [if_neg (by omega)]
      have hpnodup : (((g.drop offset).take 100).map Prod.fst).Nodup := by
        rw [List.map_take]
        exact List.Nodup.sublist (List.take_sublist 100 _) hgdnd
      rw [processItems_outcomes (g ++ (bn, b) :: r) none filt
        ((g.drop offset).take 100) acc hnd
        (fun p hp => hgsub p (List.take_subset 100 _ hp))
        (fun p hp => hgood p (List.drop_subset offset g
          (List.take_subset 100 _ hp)))
        (fun p hp => hfresh p (hde ▸ List.mem_append_left _
          (List.take_subset 100 _ hp)))
        hpnodup]
      dsimp only
      rw [if_neg (by omega)]
      have hdd2 : (g ++ (bn, b) :: r).drop (offset + 100) =
          ((g ++ (bn, b) :: r).drop offset).drop 100 :=
        (List.drop_drop 100 offset _).symm
      have hgdd : g.drop (offset + 100) = (g.drop offset).drop 100 :=
        (List.drop_drop 100 offset g).symm
      have hfresh2 : ∀ p ∈ (g ++ (bn, b) :: r).drop (offset + 100),
          p.1 ∉ (acc ++
            outResults filt ((g.drop offset).take 100)).map Prod.fst := by
        intro p hp
        rw [List.map_append, List.mem_append]
        rintro (hqa | hqb)
        · refine hfresh p ?_ hqa
          rw [hdd2] at hp
          exact List.drop_subset 100 _ hp
        · have h1 : p.1 ∈ ((g.drop offset).take 100).map Prod.fst :=
            outResults_keys filt _ p.1 hqb
          rw [← hpage, List.map_take] at h1
          have h2 : p.1 ∈
              (((g ++ (bn, b) :: r).drop offset).map Prod.fst).drop 100 := by
            rw [← List.map_drop, ← hdd2]
            exact List.mem_map_of_mem Prod.fst hp
          exact List.disjoint_take_drop hdnd (le_refl 100) h1 h2
      have hrec := ih (offset + 100)
        (acc ++ outResults filt ((g.drop offset).take 100)) (tr ++ [100])
        (by omega) (by omega) hfresh2
      rw [hrec]
      have hsplitR : outResults filt ((g.drop offset).take 100) ++
          outResults filt (g.drop (offset + 100)) =
          outResults filt (g.drop offset) := by
        rw [hgdd, ← outResults_append, List.take_append_drop]
      have htr : traceAbort ((g ++ (bn, b) :: r).length - offset)
          (g.length - offset) =
          100 :: traceAbort ((g ++ (bn, b) :: r).length - (offset + 100))
            (g.length - (offset + 100)) := by
        conv_lhs => unfold traceAbort
        rw [if_neg (by omega)]
        have e1 : (g ++ (bn, b) :: r).length - offset - 100 =
            (g ++ (bn, b) :: r).length - (offset + 100) := by omega
        have e2 : g.length - offset - 100 = g.length - (offset + 100) := by
          omega
        rw [e1, e2]
      rw [htr, List.append_assoc, hsplitR, List.append_assoc]
      rfl

/-- The enumeration loop over an outcome-backed namespace whose page
listing fails at offset `foff` (a page boundary within the namespace,
with the entries before it clean): the loop processes the full pages
before `foff`, and the failing fetch aborts the call with the
transport error, returning the partial results accumulated from those
pages alongside the error; nothing at or beyond `foff` is processed. -/
theorem getAllLoop_pageErr
    (entries : List (String × DocOutcome)) (foff : Nat) (e : GoErr)
    (filt : String → Bool)
    (hnd : (entries.map Prod.fst).Nodup)
    (hclean : ∀ p ∈ entries.take foff, filt p.1 = true → ∃ d, p.2 = .present d)
    (hle : foff ≤ entries.length) :
    ∀ (fuel offset : Nat) (acc : List (String × List Nat)) (tr : List Nat),
      offset ≤ foff →
      (foff - offset) % 100 = 0 →
      (foff - offset) / 100 < fuel →
      (∀ p ∈ entries.drop offset, p.1 ∉ acc.map Prod.fst) →
      getAllLoop (vaultOfOutcomes entries (some (foff, e))) filt fuel offset
          acc tr =
        some (acc ++
                outResults filt ((entries.drop offset).take (foff - offset)),
              some e,
              tr ++ List.replicate ((foff - offset) / 100) 100) := by
  intro fuel
  induction fuel with
  | zero =>
    intro offset acc tr hoff hmod hfuel hfresh
    exact absurd hfuel (Nat.not_lt_zero _)
  | succ fuel ih =>
    intro offset acc tr hoff hmod hfuel hfresh
    by_cases hoe : offset = foff
    · subst hoe
      rw [getAllLoop_succ_err (vaultOfOutcomes entries (some (offset, e))) filt
        fuel offset acc tr e (vaultOfOutcomes_getSecrets_err entries offset e 100)]
      rw [Nat.sub_self]
      simp [outResults]
    · have hlt : offset < foff := by omega
      have hge : 100 ≤ foff - offset := by omega
      have hpage2 : ((entries.take foff).drop offset).take 100 =
          (entries.drop offset).take 100 := by
        rw [List.drop_take, List.take_take, min_eq_left (by omega)]
      have hsubclean : ∀ p ∈ (entries.drop offset).take 100,
          p ∈ entries.take foff := by
        intro p hp
        rw [← hpage2] at hp
        exact List.drop_subset offset _ (List.take_subset 100 _ hp)
      have hdnd : ((entries.drop offset).map Prod.fst).Nodup := by
        rw [List.map_drop]
        exact List.Nodup.sublist (List.drop_sublist offset _) hnd
      have hplen : ((entries.drop offset).take 100).length = 100 := by
        rw [List.length_take, List.length_drop]
        omega
      rw [getAllLoop_succ_ok (vaultOfOutcomes entries (some (foff, e))) filt
        fuel offset acc tr (((entries.drop offset).take 100).map Prod.fst)
        (vaultOfOutcomes_getSecrets_ok entries (some (foff, e)) offset 100
          (fun fe hfe => by
            cases hfe
            exact hoe))]
      rw [List.length_map, hplen]
      rw [if_neg (by omega)]
      have hpnodup : (((entries.drop offset).take 100).map Prod.fst).Nodup := by
        rw [List.map_take]
        exact List.Nodup.sublist (List.take_sublist 100 _) hdnd
      rw [processItems_outcomes entries (some (foff, e)) filt
        ((entries.drop offset).take 100) acc hnd
        (fun p hp => List.drop_subset offset _ (List.take_subset 100 _ hp))
        (fun p hp => hclean p (hsubclean p hp))
        (fun p hp => hfresh p (List.take_subset 100 _ hp))
        hpnodup]
      dsimp only
      rw [if_neg (by omega)]
      have hdd2 : entries.drop (offset + 100) =
          (entries.drop offset).drop 100 :=
        (List.drop_drop 100 offset entries).symm
      have hfresh2 : ∀ p ∈ entries.drop (offset + 100),
          p.1 ∉ (acc ++
            outResults filt ((entries.drop offset).take 100)).map Prod.fst := by
        intro p hp
        rw [List.map_append, List.mem_append]
        rintro (hqa | hqb)
        · refine hfresh p ?_ hqa
          rw [hdd2] at hp
          exact List.drop_subset 100 _ hp
        · have h1 : p.1 ∈ ((entries.drop offset).take 100).map Prod.fst :=
            outResults_keys filt _ p.1 hqb
          rw [List.map_take] at h1
          have h2 : p.1 ∈ ((entries.drop offset).map Prod.fst).drop 100 := by
            rw [← List.map_drop, ← hdd2]
            exact List.mem_map_of_mem Prod.fst hp
          exact List.disjoint_take_drop hdnd (le_refl 100) h1 h2
      have hrec := ih (offset + 100)
        (acc ++ outResults filt ((entries.drop offset).take 100)) (tr ++ [100])
        (by omega) (by omega) (by omega) hfresh2
      rw [hrec]
      have e0 : foff - offset = 100 + (foff - offset - 100) := by omega
      have hsp : (entries.drop offset).take (foff - offset) =
          (entries.drop offset).take 100 ++
            (entries.drop (offset + 100)).take (foff - offset - 100) := by
        conv_lhs => rw [e0]
        rw [List.take_add, hdd2]
      have e1 : foff - (offset + 100) = foff - offset - 100 := by omega
      have e2 : (foff - offset) / 100 = (foff - offset - 100) / 100 + 1 := by
        omega
      rw [e1, hsp, outResults_append, e2, List.replicate_succ]
      rw [List.append_assoc, List.append_assoc]
      rfl

/-- C9 (amended: the partial results are returned alongside the error,
not discarded): whenever a page fetch, a document fetch, or the
missing-data check fails partway through a `GetAllSecrets` enumeration,
the whole call aborts with that error — no later page is fetched and no
later entry is processed — and the partial results accumulated from the
earlier pages and entries are returned together with the error rather
than discarded.  The first conjunct covers a failing document fetch and
a missing data payload (the first matched entry `bn` carries any
non-`present` outcome `b`, aborting with `abortErr b`); the second
covers a page fetch failing at page boundary `foff`, after the earlier
full pages were processed. -/
theorem getAllSecrets_abort_keeps_partial_results (filt : String → Bool) (fuel : Nat) :
    (∀ (g r : List (String × DocOutcome)) (bn : String) (b : DocOutcome),
      ((g ++ (bn, b) :: r).map Prod.fst).Nodup →
      (∀ p ∈ g, filt p.1 = true → ∃ d, p.2 = .present d) →
      filt bn = true →
      (∀ d, b ≠ .present d) →
      g.length / 100 < fuel →
      clientGetAllSecrets (vaultOfOutcomes (g ++ (bn, b) :: r) none)
          ⟨none, none, "Default", some filt⟩ fuel =
        some (outResults filt g, some (abortErr b),
              traceAbort (g.length + (r.length + 1)) g.length)) ∧
    (∀ (entries : List (String × DocOutcome)) (foff : Nat) (e : GoErr),
      (entries.map Prod.fst).Nodup →
      (∀ p ∈ entries.take foff, filt p.1 = true → ∃ d, p.2 = .present d) →
      foff % 100 = 0 →
      foff ≤ entries.length →
      foff / 100 < fuel →
      clientGetAllSecrets (vaultOfOutcomes entries (some (foff, e)))
          ⟨none, none, "Default", some filt⟩ fuel =
        some (outResults filt (entries.take foff), some e,
              List.replicate (foff / 100) 100)) := by
  constructor
  · intro g r bn b hnd hgood hbf hbad hfuel
    have h := getAllLoop_outcomes_abort g r bn b filt hnd hgood hbf hbad
      fuel 0 [] [] (Nat.zero_le _) (by simpa using hfuel) (by simp)
    rw [clientGetAllSecrets_run, h]
    rw [List.drop_zero, Nat.sub_zero, Nat.sub_zero, List.nil_append,
        List.nil_append]
    rw [show (g ++ (bn, b) :: r).length = g.length + (r.length + 1) from by
      rw [List.length_append, List.length_cons]]
  · intro entries foff e hnd hclean hmod hle hfuel
    have h := getAllLoop_pageErr entries foff e filt hnd hclean hle
      fuel 0 [] [] (Nat.zero_le _) (by simpa using hmod)
      (by simpa using hfuel) (by simp)
    rw [clientGetAllSecrets_run, h]
    rw [List.drop_zero, Nat.sub_zero, List.nil_append, List.nil_append]

/-- The 250-entry namespace again, as outcome entries: all documents
present, names distinct. -/
def outcomes250 : List (String × DocOutcome) :=
  (List.range 250).map
    (fun i => (nameOf i, DocOutcome.present [("v", Json.num i)]))

/-- The 250 outcome-entry names contain no duplicate. -/
theorem outcomes250_names_nodup : (outcomes250.map Prod.fst).Nodup := by
  unfold outcomes250
  rw [List.map_map]
  exact (List.nodup_range 250).map nameOf_injective

/-- Every outcome entry's document is present. -/
theorem outcomes250_all_present :
    ∀ p ∈ outcomes250, ∃ d, p.2 = DocOutcome.present d := by
  intro p hp
  obtain ⟨i, -, rfl⟩ := List.mem_map.mp hp
  exact ⟨_, rfl⟩

/-- The outcome namespace has 250 entries. -/
theorem outcomes250_length : outcomes250.length = 250 := by
  unfold outcomes250
  rw [List.length_map, List.length_range]

/-- C9 witness: all three failure modes at concrete inputs — a failing
document fetch after one good entry, a missing data payload after one
good entry, and a page fetch failing after one full page of 100
entries; each returns its partial results alongside the error. -/
theorem getAllSecrets_abort_keeps_partial_results_witness :
    (clientGetAllSecrets
        (vaultOfOutcomes [("fooA", .present [("k", Json.str "v")]),
          ("fooB", .failed (.vaultMsg "connection reset"))] none)
        ⟨none, none, "Default", some (fun _ => true)⟩ 1 =
      some (outResults (fun _ => true)
              [("fooA", .present [("k", Json.str "v")])],
            some (.vaultMsg "connection reset"), traceAbort 2 1)) ∧
    (clientGetAllSecrets
        (vaultOfOutcomes [("fooA", .present [("k", Json.str "v")]),
          ("fooB", .missing)] none)
        ⟨none, none, "Default", some (fun _ => true)⟩ 1 =
      some (outResults (fun _ => true)
              [("fooA", .present [("k", Json.str "v")])],
            some (.secretDataMissing ""), traceAbort 2 1)) ∧
    (clientGetAllSecrets
        (vaultOfOutcomes outcomes250 (some (100, .vaultMsg "net down")))
        ⟨none, none, "Default", some fooMatch⟩ 2 =
      some (outResults fooMatch (outcomes250.take 100),
            some (.vaultMsg "net down"), [100])) := by
  refine ⟨?_, ?_, ?_⟩
  · exact (getAllSecrets_abort_keeps_partial_results (fun _ => true) 1).1
      [("fooA", .present [("k", Json.str "v")])] [] "fooB"
      (.failed (.vaultMsg "connection reset"))
      (by decide)
      (fun p hp _ => by
        rw [List.mem_singleton] at hp
        subst hp
        exact ⟨_, rfl⟩)
      rfl
      (fun d h => DocOutcome.noConfusion h)
      (by decide)
  · exact (getAllSecrets_abort_keeps_partial_results (fun _ => true) 1).1
      [("fooA", .present [("k", Json.str "v")])] [] "fooB" .missing
      (by decide)
      (fun p hp _ => by
        rw [List.mem_singleton] at hp
        subst hp
        exact ⟨_, rfl⟩)
      rfl
      (fun d h => DocOutcome.noConfusion h)
      (by decide)
  · exact (getAllSecrets_abort_keeps_partial_results fooMatch 2).2
      outcomes250 100 (.vaultMsg "net down")
      outcomes250_names_nodup
      (fun p hp _ => outcomes250_all_present p (List.take_subset 100 _ hp))
      (by decide)
      (by rw [outcomes250_length]; omega)
      (by decide)
